import Mathlib

/-!
Verification of the go-tsne t-SNE implementation (package `tsne`).

The Go source is shallowly embedded over exact rationals `ℚ`:
`float64` arithmetic is idealized as exact field arithmetic, and the
transcendental functions `math.Exp` / `math.Log` are abstract parameters
`e l : ℚ → ℚ` (hypotheses such as positivity of `e` are stated where a
claim needs them).  `math/rand` Gaussian draws are modelled as an explicit
matrix of draws supplied to `initSolution`.  The per-iteration callback is
a Lean function; the optimizer run additionally returns the list of
callback records `(iter, divergence, Y)` so temporal claims can be stated.
Go panics are modelled with `Except`.
-/

namespace GoTSNE

/-- A matrix with `n` rows and `m` columns over `ℚ`. -/
abbrev Mat (n m : ℕ) : Type := Fin n → Fin m → ℚ

/-- Constant `Epsilon = 1e-7` from the source. -/
def Epsilon : ℚ := 1 / 10 ^ 7

/-- Constant `GreaterThanZero = 1e-12` from the source. -/
def GreaterThanZero : ℚ := 1 / 10 ^ 12

/-- Constant `EntropyTolerance = 1e-5` from the source. -/
def EntropyTolerance : ℚ := 1 / 10 ^ 5

/-- Constant `MaxBinarySearchSteps = 50` from the source. -/
def MaxBinarySearchSteps : ℕ := 50

/-- `Diagonal` returns the diagonal elements of a square matrix. -/
def Diagonal {n : ℕ} (a : Mat n n) : Fin n → ℚ := fun i => a i i

/-- `SquaredDistanceMatrix` computes the squared distance matrix for the
row vectors of `X`, via `x'x + y'y - 2 x'y` exactly as the source:
`xy := X * Xᵀ`, take its diagonal, scale `xy` by `-2`, broadcast the
diagonal into `xx` and `yy`, and return `xx + yy + (-2) * xy`. -/
def SquaredDistanceMatrix {n d : ℕ} (X : Mat n d) : Mat n n :=
  let xy : Mat n n := fun r c => ∑ k, X r k * X c k
  let diagVec : Fin n → ℚ := Diagonal xy
  let xyScaled : Mat n n := fun r c => -2 * xy r c
  let xx : Mat n n := fun r _ => diagVec r
  let yy : Mat n n := fun _ c => diagVec c
  fun r c => (xx r c + yy r c) + xyScaled r c

/-- Example feature matrix from the repository's unit test:
rows `(2,3), (8,7), (2,2)`. -/
def Xtest : Mat 3 2 := ![![2, 3], ![8, 7], ![2, 2]]

/-! ## Affinity calibration (`d2p`)

`e` models `math.Exp` and `l` models `math.Log`.  The infinite initial
bounds `betaMin = -Inf`, `betaMax = +Inf` are modelled as `Option ℚ`
(`none` standing for the infinity); the source only ever compares them
against the infinities and otherwise uses their finite values. -/

/-- Raw (unnormalized) similarity of point `i` to each `j` at precision
`beta`: `0` on the diagonal, `exp (-D[i][j] * beta)` off it. -/
def rawProb (e : ℚ → ℚ) {n : ℕ} (Di : Fin n → ℚ) (i : Fin n) (beta : ℚ) : Fin n → ℚ :=
  fun j => if i = j then 0 else e (-(Di j) * beta)

/-- `pSum`, the sum of the raw similarities of row `i`. -/
def pSumOf (e : ℚ → ℚ) {n : ℕ} (Di : Fin n → ℚ) (i : Fin n) (beta : ℚ) : ℚ :=
  ∑ j, rawProb e Di i beta j

/-- The normalized probability row: each raw similarity divided by `pSum`,
or `0` everywhere if `pSum` is exactly zero (the defensive branch). -/
def normProb (e : ℚ → ℚ) {n : ℕ} (Di : Fin n → ℚ) (i : Fin n) (beta : ℚ) : Fin n → ℚ :=
  fun j => if pSumOf e Di i beta = 0 then 0 else rawProb e Di i beta j / pSumOf e Di i beta

/-- Shannon entropy of the normalized row, summing `-p * log p` only over
entries with `p > Epsilon` (`H` starts at `0` and only such terms are
subtracted in the source). -/
def entropyOf (e l : ℚ → ℚ) {n : ℕ} (Di : Fin n → ℚ) (i : Fin n) (beta : ℚ) : ℚ :=
  ∑ j, if Epsilon < normProb e Di i beta j then
    -(normProb e Di i beta j * l (normProb e Di i beta j)) else 0

/-- One beta adjustment of the binary search: on `Hdiff > 0` raise the
precision (double while `betaMax` is infinite, else bisect up), otherwise
lower it (halve while `betaMin` is infinite, else bisect down).  Returns
the new `(betaMin, betaMax, beta)`. -/
def betaAdjust (Hdiff beta : ℚ) (betaMin betaMax : Option ℚ) :
    Option ℚ × Option ℚ × ℚ :=
  if 0 < Hdiff then
    (some beta, betaMax,
      match betaMax with
      | none => beta * 2
      | some bmax => (beta + bmax) / 2)
  else
    (betaMin, some beta,
      match betaMin with
      | none => beta / 2
      | some bmin => (beta + bmin) / 2)

/-- The per-point binary search loop of `d2p`, with explicit fuel
(`MaxBinarySearchSteps` at the top call).  Each executed loop iteration
writes the normalized row for the current `beta` into `P`, adjusts the
bounds, and breaks once `|H - Htarget| < tol`; when the fuel runs out the
last written row is kept.  Returns the row left in `P` together with the
number of loop iterations executed. -/
def d2pSearch (e l : ℚ → ℚ) {n : ℕ} (Htarget tol : ℚ) (Di : Fin n → ℚ) (i : Fin n) :
    ℕ → Option ℚ → Option ℚ → ℚ → (Fin n → ℚ) × ℕ
  | 0, _, _, _ => (fun _ => 0, 0)
  | fuel + 1, betaMin, betaMax, beta =>
    let p := normProb e Di i beta
    let H := entropyOf e l Di i beta
    let Hdiff := H - Htarget
    let next := betaAdjust Hdiff beta betaMin betaMax
    if |Hdiff| < tol then (p, 1)
    else
      match fuel with
      | 0 => (p, 1)
      | fuel2 + 1 =>
        let rest := d2pSearch e l Htarget tol Di i (fuel2 + 1) next.1 next.2.1 next.2.2
        (rest.1, rest.2 + 1)

/-- The `(betaMin, betaMax, beta)` state transition performed by one
non-final binary-search iteration. -/
def searchState (e l : ℚ → ℚ) {n : ℕ} (Htarget : ℚ) (Di : Fin n → ℚ) (i : Fin n) :
    Option ℚ × Option ℚ × ℚ → Option ℚ × Option ℚ × ℚ :=
  fun s => betaAdjust (entropyOf e l Di i s.2.2 - Htarget) s.2.2 s.1 s.2.1

/-- The probability row stored into `P` for point `i`: the row left by the
binary search started at `beta = 1` with infinite bounds and fuel
`MaxBinarySearchSteps`. -/
def d2pRow (e l : ℚ → ℚ) {n : ℕ} (Htarget tol : ℚ) (D : Mat n n) (i : Fin n) : Fin n → ℚ :=
  (d2pSearch e l Htarget tol (fun j => D i j) i MaxBinarySearchSteps none none 1).1

/-- `d2p`: per-point calibrated rows, then symmetrize (`P + Pᵀ`), scale by
`1/(2n)`, and floor every entry at `GreaterThanZero`. -/
def d2p (e l : ℚ → ℚ) {n : ℕ} (tol perplexity : ℚ) (D : Mat n n) : Mat n n :=
  let Htarget := l perplexity
  let P0 : Mat n n := fun i j => d2pRow e l Htarget tol D i j
  let Psym : Mat n n := fun i j => P0 i j + P0 j i
  let Pscaled : Mat n n := fun i j => 1 / (2 * (n : ℚ)) * Psym i j
  fun i j => max (Pscaled i j) GreaterThanZero

/-! ## Embedding optimizer -/

/-- The mutable optimizer state: the embedding `Y` and the gradient buffer
`dCdY` (both fields of the Go `TSNE` struct that change during `run`). -/
structure OptState (n m : ℕ) where
  Y : Mat n m
  dCdY : Mat n m

/-- `costGradient`: computes `Qu` (Student-t kernel over the current
squared distances of `Y`, zero diagonal), the normalized and floored `Q`,
the divergence `PlogP - Σ P ⊙ log Q`, and accumulates the gradient into
the existing buffer `dCdY` (the source does `dCdY[r][k] += m*(Y[r][k] -
Y[c][k])` without clearing the buffer first).  Returns the divergence and
the updated buffer. -/
def costGradient (l : ℚ → ℚ) {n m : ℕ} (PlogP : ℚ) (P : Mat n n) (Y : Mat n m)
    (dCdY : Mat n m) : ℚ × Mat n m :=
  let DY := SquaredDistanceMatrix Y
  let Qu : Mat n n := fun i j => if i = j then 0 else 1 / (1 + DY i j)
  let sumQu := ∑ i, ∑ j, Qu i j
  let Q : Mat n n := fun i j => max (1 / sumQu * Qu i j) GreaterThanZero
  let logQ : Mat n n := fun i j => l (Q i j)
  let PlogQ := ∑ i, ∑ j, P i j * logQ i j
  let divergence := PlogP - PlogQ
  let mult : Mat n n := fun r c => 4 * (P r c - Q r c) * Qu r c
  let dCdY2 : Mat n m := fun r k => dCdY r k + ∑ c, mult r c * (Y r k - Y c k)
  (divergence, dCdY2)

/-- Re-centering step of `run`: subtract from every entry of a column that
column's mean over the `n` rows. -/
def recenter {n m : ℕ} (Y : Mat n m) : Mat n m :=
  fun i j => Y i j - (∑ i2, Y i2 j) / (n : ℚ)

/-- One iteration of the `run` loop: `costGradient`, then
`Y ← Y - learningRate * dCdY`, then re-center `Y`.  Returns the divergence
together with the updated state (the gradient buffer persists). -/
def stepIter (l : ℚ → ℚ) {n m : ℕ} (learningRate PlogP : ℚ) (P : Mat n n)
    (st : OptState n m) : ℚ × OptState n m :=
  let cg := costGradient l PlogP P st.Y st.dCdY
  let Y1 : Mat n m := fun i j => st.Y i j - learningRate * cg.2 i j
  ⟨cg.1, recenter Y1, cg.2⟩

/-- The `run` loop with explicit fuel (`maxIter - iter` remaining
iterations) and current iteration index.  Returns the final state and the
list of per-iteration records `(iter, divergence, Y)`; when a callback is
supplied it is invoked on exactly these records, and a `true` return
breaks the loop immediately after that invocation. -/
def runAux (l : ℚ → ℚ) {n m : ℕ} (learningRate PlogP : ℚ) (P : Mat n n)
    (cb : Option (ℕ → ℚ → Mat n m → Bool)) :
    ℕ → ℕ → OptState n m → OptState n m × List (ℕ × ℚ × Mat n m)
  | 0, _, st => (st, [])
  | fuel + 1, iter, st =>
    let r := stepIter l learningRate PlogP P st
    let stop := match cb with
      | none => false
      | some f => f iter r.1 r.2.Y
    if stop then (r.2, [(iter, r.1, r.2.Y)])
    else
      let rest := runAux l learningRate PlogP P cb fuel (iter + 1) r.2
      (rest.1, (iter, r.1, r.2.Y) :: rest.2)

/-- `initSolution`: the embedding is an `n × dimsOut` matrix of Gaussian
draws (modelled by the explicitly supplied `draws`), the gradient buffer
is freshly allocated to zero, and `PlogP = Σ P ⊙ log P` is computed once.
Returns the initial state and the `PlogP` constant. -/
def initSolution (l : ℚ → ℚ) {n m : ℕ} (draws : Mat n m) (P : Mat n n) :
    OptState n m × ℚ :=
  (⟨draws, fun _ _ => 0⟩, ∑ i, ∑ j, P i j * l (P i j))

/-- A caller-supplied matrix whose shape is not known to be square:
`mat.Matrix` with its `Dims`. -/
structure RawMatrix where
  rows : ℕ
  cols : ℕ
  entry : Fin rows → Fin cols → ℚ

/-- `EmbedDistances`: verify that `D` is square (the Go code panics
otherwise, modelled as `Except.error`; nothing else is computed and no
state is produced in that case), then compute `P` with `d2p`, initialize
the solution, run the optimizer, and return the final embedding together
with the per-iteration records. -/
def EmbedDistances (e l : ℚ → ℚ) {dimsOut : ℕ} (perplexity learningRate : ℚ)
    (maxIter : ℕ) (Dm : RawMatrix) (draws : Mat Dm.rows dimsOut)
    (cb : Option (ℕ → ℚ → Mat Dm.rows dimsOut → Bool)) :
    Except String (Mat Dm.rows dimsOut × List (ℕ × ℚ × Mat Dm.rows dimsOut)) :=
  if h : Dm.rows = Dm.cols then
    let D : Mat Dm.rows Dm.rows := fun i j => Dm.entry i (Fin.cast h j)
    let P := d2p e l EntropyTolerance perplexity D
    let init := initSolution l draws P
    let r := runAux l learningRate init.2 P cb maxIter 0 init.1
    Except.ok (r.1.Y, r.2)
  else
    Except.error "squared distance matrix is not square"

/-! ## Buffer/store model for the frame property

gonum `mat.Dense` values are mutable buffers.  To state that the
embedding entry points never mutate the caller-supplied input matrix we
model a store of matrix buffers with allocation, read and write, and
re-express the buffer-level traffic of `SquaredDistanceMatrix`, `d2p`,
`EmbedDistances` and `EmbedData` as store transformers.  The numeric
values written are the ones computed by the pure embeddings above; the
point of this level is which buffer each gonum call writes to. -/

/-- A matrix buffer: recorded dimensions and (unbounded) contents. -/
structure GMatrix where
  rows : ℕ
  cols : ℕ
  data : ℕ → ℕ → ℚ

/-- A zeroed buffer, as allocated by `mat.NewDense(r, c, nil)`. -/
def GMatrix.zero (r c : ℕ) : GMatrix := ⟨r, c, fun _ _ => 0⟩

/-- Transpose of a buffer value (`X.T()`). -/
def GMatrix.transpose (a : GMatrix) : GMatrix := ⟨a.cols, a.rows, fun i j => a.data j i⟩

/-- Product of two buffer values (`Mul`). -/
def GMatrix.mul (a b : GMatrix) : GMatrix :=
  ⟨a.rows, b.cols, fun i j => ∑ k in Finset.range a.cols, a.data i k * b.data k j⟩

/-- Scalar multiple of a buffer value (`Scale`). -/
def GMatrix.scale (c : ℚ) (a : GMatrix) : GMatrix :=
  ⟨a.rows, a.cols, fun i j => c * a.data i j⟩

/-- Entrywise sum of two buffer values (`Add`). -/
def GMatrix.add (a b : GMatrix) : GMatrix :=
  ⟨a.rows, a.cols, fun i j => a.data i j + b.data i j⟩

/-- Diagonal of a buffer value (`Diagonal`, which reads a copy). -/
def GMatrix.diag (a : GMatrix) : ℕ → ℚ := fun i => a.data i i

/-- A store of allocated buffers addressed by numeric references:
references below `next` are allocated. -/
structure Store where
  next : ℕ
  mem : ℕ → Option GMatrix

/-- Allocate a fresh buffer (`mat.NewDense`, `mat.DenseCopyOf`) and
return its reference. -/
def Store.alloc (s : Store) (v : GMatrix) : Store × ℕ :=
  (⟨s.next + 1, fun r => if r = s.next then some v else s.mem r⟩, s.next)

/-- Overwrite the buffer behind a reference (receiver-mutating gonum
calls: `Mul`, `Add`, `Scale`, `Apply`, `Set`, `Sub`, `MulElem`). -/
def Store.write (s : Store) (r : ℕ) (v : GMatrix) : Store :=
  ⟨s.next, fun r2 => if r2 = r then some v else s.mem r2⟩

/-- Read the buffer behind a reference. -/
def Store.read (s : Store) (r : ℕ) : GMatrix :=
  (s.mem r).getD (GMatrix.zero 0 0)

/-- Store-level `SquaredDistanceMatrix`, gonum call by gonum call:
allocate `D` and `xy`; `xy.Mul(X, X.T())`; take the diagonal; `xy.Scale(-2,
xy)`; allocate and fill `xx` and `yy`; `D.Add(xx, yy)`; `D.Add(D, xy)`.
`X`'s buffer is only ever read. -/
def SquaredDistanceMatrixS (s : Store) (xRef : ℕ) : Store × ℕ :=
  let n := (s.read xRef).rows
  let a1 := s.alloc (GMatrix.zero n n)
  let a2 := a1.1.alloc (GMatrix.zero n n)
  let s3 := a2.1.write a2.2 ((a2.1.read xRef).mul (a2.1.read xRef).transpose)
  let diagVec := (s3.read a2.2).diag
  let s4 := s3.write a2.2 (GMatrix.scale (-2) (s3.read a2.2))
  let a5 := s4.alloc (GMatrix.zero n n)
  let a6 := a5.1.alloc (GMatrix.zero n n)
  let s7 := a6.1.write a5.2 ⟨n, n, fun r _ => diagVec r⟩
  let s8 := s7.write a6.2 ⟨n, n, fun _ c => diagVec c⟩
  let s9 := s8.write a1.2 ((s8.read a5.2).add (s8.read a6.2))
  let s10 := s9.write a1.2 ((s9.read a1.2).add (s9.read a2.2))
  (s10, a1.2)

/-- Store-level `d2p`: allocate `P` (`tsne.P = mat.NewDense`), copy the
caller's `D` into a fresh buffer (`dDense := mat.DenseCopyOf(D)`), then
compute every row from the copy and symmetrize/scale/floor, writing only
into `P` (the numeric content is the pure `d2p` of the copied values). -/
def d2pS (e l : ℚ → ℚ) (tol perplexity : ℚ) (s : Store) (dRef : ℕ) : Store × ℕ :=
  let n := (s.read dRef).rows
  let a1 := s.alloc (GMatrix.zero n n)
  let a2 := a1.1.alloc (a1.1.read dRef)
  let Dv : Mat n n := fun i j => (a2.1.read a2.2).data i j
  let Pv := d2p e l tol perplexity Dv
  let s3 := a2.1.write a1.2
    ⟨n, n, fun i j => if h : i < n ∧ j < n then Pv ⟨i, h.1⟩ ⟨j, h.2⟩ else 0⟩
  (s3, a1.2)

/-- Store-level `EmbedDistances` (square path): compute `P` with `d2pS`,
allocate `Y` (the Gaussian draw) and the zero gradient buffer
(`initSolution`), then run the optimizer, which writes only into the `Y`
and gradient buffers; their final values are the pure `runAux` results. -/
def EmbedDistancesS (e l : ℚ → ℚ) (dimsOut : ℕ) (perplexity learningRate : ℚ)
    (maxIter : ℕ) (draws : ℕ → ℕ → ℚ) (s : Store) (dRef : ℕ) : Store × ℕ :=
  let n := (s.read dRef).rows
  let a1 := d2pS e l EntropyTolerance perplexity s dRef
  let Pv : Mat n n := fun i j => (a1.1.read a1.2).data i j
  let drawsv : Mat n dimsOut := fun i j => draws i j
  let init := initSolution l drawsv Pv
  let a2 := a1.1.alloc ⟨n, dimsOut, fun i j => draws i j⟩
  let a3 := a2.1.alloc (GMatrix.zero n dimsOut)
  let r := runAux l learningRate init.2 Pv none maxIter 0 init.1
  let s4 := a3.1.write a2.2
    ⟨n, dimsOut, fun i j =>
      if h : i < n ∧ j < dimsOut then r.1.Y ⟨i, h.1⟩ ⟨j, h.2⟩ else 0⟩
  let s5 := s4.write a3.2
    ⟨n, dimsOut, fun i j =>
      if h : i < n ∧ j < dimsOut then r.1.dCdY ⟨i, h.1⟩ ⟨j, h.2⟩ else 0⟩
  (s5, a2.2)

/-- Store-level `EmbedData`: squared distances of the features, then
`EmbedDistancesS` on the fresh distance buffer. -/
def EmbedDataS (e l : ℚ → ℚ) (dimsOut : ℕ) (perplexity learningRate : ℚ)
    (maxIter : ℕ) (draws : ℕ → ℕ → ℚ) (s : Store) (xRef : ℕ) : Store × ℕ :=
  let a1 := SquaredDistanceMatrixS s xRef
  EmbedDistancesS e l dimsOut perplexity learningRate maxIter draws a1.1 a1.2

/-- A one-buffer store used as a closed instance. -/
def storeEx : Store :=
  ⟨1, fun r => if r = 0 then some ⟨1, 1, fun _ _ => 0⟩ else none⟩

/-! ## Concrete instances used by closed instance theorems -/

/-- Abstract exponential for examples: constantly `1` (positive). -/
def expOne : ℚ → ℚ := fun _ => 1

/-- Abstract exponential for degenerate examples: constantly `0`. -/
def expZero : ℚ → ℚ := fun _ => 0

/-- Abstract logarithm for examples: constantly `0`. -/
def logZero : ℚ → ℚ := fun _ => 0

/-- A 1-point distance row. -/
def Di1 : Fin 1 → ℚ := fun _ => 0

/-- The 1×1 zero squared-distance matrix. -/
def D1 : Mat 1 1 := fun _ _ => 0

/-- The 2×2 zero squared-distance matrix. -/
def Dzero2 : Mat 2 2 := fun _ _ => 0

/-- The 1×1 zero matrix with explicit shape. -/
def Dm1 : RawMatrix := ⟨1, 1, fun _ _ => 0⟩

/-- A non-square 1×2 matrix with explicit shape. -/
def DmBad : RawMatrix := ⟨1, 2, fun _ _ => 0⟩

/-- A 1×1 initial draw whose single column has mean `1`, not `0`. -/
def draws1 : Mat 1 1 := fun _ _ => 1

/-- The 1×1 zero matrix. -/
def Mzero1 : Mat 1 1 := fun _ _ => 0

/-- A callback that always requests an early stop. -/
def cbTrue : ℕ → ℚ → Mat 1 1 → Bool := fun _ _ _ => true

/-- The affinity matrix `EmbedDistances` computes for the 1×1 zero
distance matrix with the example exponential/logarithm. -/
def c3P : Mat 1 1 :=
  d2p expOne logZero EntropyTolerance 30 (fun i j => Dm1.entry i (Fin.cast rfl j))

/-- The result of the single optimizer iteration performed by
`EmbedDistances` on the 1×1 example with `maxIter = 1`. -/
def c3step : ℚ × OptState 1 1 :=
  stepIter logZero 1 (initSolution logZero draws1 c3P).2 c3P
    (initSolution logZero draws1 c3P).1

/-- 2-point affinity matrix for the gradient-accumulation example. -/
def Ptest : Mat 2 2 := fun i j => if i = j then 0 else 3 / 10

/-- Initial 2×1 embedding for the gradient-accumulation example. -/
def Ytest : Mat 2 1 := ![![0], ![1]]

/-! ## Lemmas about the calibration search -/

theorem rawProb_nonneg (e : ℚ → ℚ) {n : ℕ} (he : ∀ x, 0 < e x) (Di : Fin n → ℚ)
    (i : Fin n) (beta : ℚ) (j : Fin n) : 0 ≤ rawProb e Di i beta j := by
  unfold rawProb
  split
  · exact le_refl 0
  · exact (he _).le

theorem pSumOf_pos (e : ℚ → ℚ) {n : ℕ} (he : ∀ x, 0 < e x) (hn : 2 ≤ n)
    (Di : Fin n → ℚ) (i : Fin n) (beta : ℚ) : 0 < pSumOf e Di i beta := by
  obtain ⟨j, hj⟩ : ∃ j : Fin n, j ≠ i := by
    refine Fintype.exists_ne_of_one_lt_card ?_ i
    simpa using hn
  refine Finset.sum_pos' (fun k _ => rawProb_nonneg e he Di i beta k)
    ⟨j, Finset.mem_univ j, ?_⟩
  unfold rawProb
  rw [if_neg (Ne.symm hj)]
  exact he _

theorem normProb_nonneg (e : ℚ → ℚ) {n : ℕ} (he : ∀ x, 0 < e x) (Di : Fin n → ℚ)
    (i : Fin n) (beta : ℚ) (j : Fin n) : 0 ≤ normProb e Di i beta j := by
  unfold normProb
  split
  · exact le_refl 0
  · exact div_nonneg (rawProb_nonneg e he Di i beta j)
      (Finset.sum_nonneg fun k _ => rawProb_nonneg e he Di i beta k)

theorem normProb_sum_one (e : ℚ → ℚ) {n : ℕ} (Di : Fin n → ℚ) (i : Fin n) (beta : ℚ)
    (hp : pSumOf e Di i beta ≠ 0) : ∑ j, normProb e Di i beta j = 1 := by
  simp only [normProb, if_neg hp]
  rw [← Finset.sum_div]
  exact div_self hp

/-- Any row produced by the binary search (with positive fuel) is the
normalized probability row of some precision `b`. -/
theorem d2pSearch_row_exists (e l : ℚ → ℚ) {n : ℕ} (Htarget tol : ℚ)
    (Di : Fin n → ℚ) (i : Fin n) :
    ∀ fuel (betaMin betaMax : Option ℚ) (beta : ℚ), 0 < fuel →
      ∃ b, (d2pSearch e l Htarget tol Di i fuel betaMin betaMax beta).1 =
        normProb e Di i b := by
  have main : ∀ (k : ℕ) (betaMin betaMax : Option ℚ) (beta : ℚ),
      ∃ b, (d2pSearch e l Htarget tol Di i (k + 1) betaMin betaMax beta).1 =
        normProb e Di i b := by
    intro k
    induction k with
    | zero =>
      intro betaMin betaMax beta
      simp only [d2pSearch]
      split
      · exact ⟨beta, rfl⟩
      · exact ⟨beta, rfl⟩
    | succ k2 ih =>
      intro betaMin betaMax beta
      simp only [d2pSearch]
      split
      · exact ⟨beta, rfl⟩
      · exact ih _ _ _
  intro fuel betaMin betaMax beta hf
  obtain ⟨k, rfl⟩ : ∃ k, fuel = k + 1 := ⟨fuel - 1, by omega⟩
  exact main k betaMin betaMax beta

/-- The binary search executes at most `fuel` iterations. -/
theorem d2pSearch_steps_le (e l : ℚ → ℚ) {n : ℕ} (Htarget tol : ℚ)
    (Di : Fin n → ℚ) (i : Fin n) :
    ∀ fuel (betaMin betaMax : Option ℚ) (beta : ℚ),
      (d2pSearch e l Htarget tol Di i fuel betaMin betaMax beta).2 ≤ fuel := by
  have main : ∀ (k : ℕ) (betaMin betaMax : Option ℚ) (beta : ℚ),
      (d2pSearch e l Htarget tol Di i (k + 1) betaMin betaMax beta).2 ≤ k + 1 := by
    intro k
    induction k with
    | zero =>
      intro betaMin betaMax beta
      simp only [d2pSearch]
      split <;> simp
    | succ k2 ih =>
      intro betaMin betaMax beta
      simp only [d2pSearch]
      split
      · simp
      · exact Nat.succ_le_succ (ih _ _ _)
  intro fuel betaMin betaMax beta
  cases fuel with
  | zero => simp [d2pSearch]
  | succ k => exact main k betaMin betaMax beta

/-- If the entropy at the current `beta` is already within tolerance, the
search stops after exactly one iteration and keeps that row. -/
theorem d2pSearch_early_stop (e l : ℚ → ℚ) {n : ℕ} (Htarget tol : ℚ)
    (Di : Fin n → ℚ) (i : Fin n) (fuel : ℕ) (betaMin betaMax : Option ℚ) (beta : ℚ)
    (htol : |entropyOf e l Di i beta - Htarget| < tol) :
    d2pSearch e l Htarget tol Di i (fuel + 1) betaMin betaMax beta =
      (normProb e Di i beta, 1) := by
  cases fuel <;>
    · simp only [d2pSearch]
      rw [if_pos htol]

/-- If no precision ever brings the entropy within tolerance, the search
exhausts its whole budget and keeps the row of the last visited `beta`. -/
theorem d2pSearch_no_converge (e l : ℚ → ℚ) {n : ℕ} (Htarget tol : ℚ)
    (Di : Fin n → ℚ) (i : Fin n)
    (hnc : ∀ b, ¬ |entropyOf e l Di i b - Htarget| < tol) :
    ∀ (k : ℕ) (betaMin betaMax : Option ℚ) (beta : ℚ),
      d2pSearch e l Htarget tol Di i (k + 1) betaMin betaMax beta =
        (normProb e Di i
          ((searchState e l Htarget Di i)^[k] (betaMin, betaMax, beta)).2.2, k + 1) := by
  intro k
  induction k with
  | zero =>
    intro betaMin betaMax beta
    simp only [d2pSearch]
    rw [if_neg (hnc beta)]
    simp
  | succ k2 ih =>
    intro betaMin betaMax beta
    simp only [d2pSearch]
    rw [if_neg (hnc beta)]
    have hstep : searchState e l Htarget Di i (betaMin, betaMax, beta) =
        betaAdjust (entropyOf e l Di i beta - Htarget) beta betaMin betaMax := rfl
    rw [Function.iterate_succ_apply, hstep, ih]

/-! ## Distance layer -/

/-- The `x'x + y'y - 2 x'y` identity: each entry of the distance matrix is
the squared euclidean distance between the corresponding rows. -/
theorem squaredDistanceMatrix_eq_sum_sq {n d : ℕ} (X : Mat n d) (i j : Fin n) :
    SquaredDistanceMatrix X i j = ∑ k, (X i k - X j k) ^ 2 := by
  unfold SquaredDistanceMatrix Diagonal
  simp only
  rw [Finset.mul_sum, ← Finset.sum_add_distrib, ← Finset.sum_add_distrib]
  exact Finset.sum_congr rfl fun k _ => by ring

/-- C6: `SquaredDistanceMatrix` returns a symmetric matrix with zero
diagonal whose `(i,j)` entry is `‖x_i - x_j‖²` (computed via the
`x'x + y'y - 2 x'y` identity), and on the test matrix with rows
`(2,3), (8,7), (2,2)` the off-diagonal distances are `52`, `1`, `61`. -/
theorem c6_squared_distance_matrix :
    (∀ n d : ℕ, ∀ X : Mat n d, ∀ i j : Fin n,
        SquaredDistanceMatrix X i j = SquaredDistanceMatrix X j i) ∧
    (∀ n d : ℕ, ∀ X : Mat n d, ∀ i : Fin n, SquaredDistanceMatrix X i i = 0) ∧
    (∀ n d : ℕ, ∀ X : Mat n d, ∀ i j : Fin n,
        SquaredDistanceMatrix X i j = ∑ k, (X i k - X j k) ^ 2) ∧
    (SquaredDistanceMatrix Xtest 0 1 = 52 ∧ SquaredDistanceMatrix Xtest 0 2 = 1 ∧
      SquaredDistanceMatrix Xtest 1 2 = 61) := by
  refine ⟨fun n d X i j => ?_, fun n d X i => ?_,
    fun n d X i j => squaredDistanceMatrix_eq_sum_sq X i j, ?_⟩
  · rw [squaredDistanceMatrix_eq_sum_sq, squaredDistanceMatrix_eq_sum_sq]
    exact Finset.sum_congr rfl fun k _ => by ring
  · rw [squaredDistanceMatrix_eq_sum_sq]
    simp
  · refine ⟨?_, ?_, ?_⟩ <;>
      · rw [squaredDistanceMatrix_eq_sum_sq]
        norm_num [Xtest, Fin.sum_univ_two]

/-! ## C5: bounded, tolerance-driven binary search -/

/-- C5: the per-point binary search executes at most
`MaxBinarySearchSteps = 50` iterations (being a total function it always
terminates); it stops after the current iteration as soon as the entropy
is within tolerance of the target; and when no visited precision ever
meets the tolerance it silently exhausts the whole 50-step budget and
keeps the probabilities computed with the precision of the 50th step —
there is no error outcome. -/
theorem c5_binary_search_bounded (e l : ℚ → ℚ) {n : ℕ} (Htarget tol : ℚ)
    (Di : Fin n → ℚ) (i : Fin n) (betaMin betaMax : Option ℚ) (beta : ℚ) :
    (d2pSearch e l Htarget tol Di i MaxBinarySearchSteps betaMin betaMax beta).2 ≤
      MaxBinarySearchSteps ∧
    (|entropyOf e l Di i beta - Htarget| < tol →
      d2pSearch e l Htarget tol Di i MaxBinarySearchSteps betaMin betaMax beta =
        (normProb e Di i beta, 1)) ∧
    ((∀ b, ¬ |entropyOf e l Di i b - Htarget| < tol) →
      d2pSearch e l Htarget tol Di i MaxBinarySearchSteps betaMin betaMax beta =
        (normProb e Di i
          ((searchState e l Htarget Di i)^[MaxBinarySearchSteps - 1]
            (betaMin, betaMax, beta)).2.2, MaxBinarySearchSteps)) := by
  refine ⟨d2pSearch_steps_le e l Htarget tol Di i _ _ _ _, fun htol => ?_, fun hnc => ?_⟩
  · rw [show MaxBinarySearchSteps = 49 + 1 from rfl]
    exact d2pSearch_early_stop e l Htarget tol Di i 49 betaMin betaMax beta htol
  · rw [show MaxBinarySearchSteps - 1 = 49 from rfl,
      show MaxBinarySearchSteps = 49 + 1 from rfl]
    exact d2pSearch_no_converge e l Htarget tol Di i hnc 49 betaMin betaMax beta

/-- Closed instance of `c5_binary_search_bounded`: at a 1-point input the
entropy is `0`, so with target `0` and tolerance `1` the search stops after
one step, while with tolerance `0` it never converges and runs the full 50
steps, keeping the last row. -/
theorem c5_binary_search_bounded_witness :
    (|entropyOf expOne logZero Di1 0 1 - 0| < 1 ∧
      d2pSearch expOne logZero 0 1 Di1 0 MaxBinarySearchSteps none none 1 =
        (normProb expOne Di1 0 1, 1)) ∧
    d2pSearch expOne logZero 0 0 Di1 0 MaxBinarySearchSteps none none 1 =
      (normProb expOne Di1 0
        ((searchState expOne logZero 0 Di1 0)^[MaxBinarySearchSteps - 1]
          (none, none, 1)).2.2, MaxBinarySearchSteps) := by
  have htol : |entropyOf expOne logZero Di1 0 1 - 0| < 1 := by
    norm_num [entropyOf, normProb, pSumOf, rawProb, Di1, Epsilon, expOne, logZero]
  exact ⟨⟨htol, (c5_binary_search_bounded expOne logZero 0 1 Di1 0 none none 1).2.1 htol⟩,
    (c5_binary_search_bounded expOne logZero 0 0 Di1 0 none none 1).2.2
      fun b => not_lt.mpr (abs_nonneg _)⟩

/-! ## C4 and C9: invariants of the affinity matrix -/

/-- With a positive exponential and at least two points, any row kept by
the binary search sums to exactly 1. -/
theorem d2pSearch_row_sum_one (e l : ℚ → ℚ) {n : ℕ} (he : ∀ x, 0 < e x) (hn : 2 ≤ n)
    (Htarget tol : ℚ) (Di : Fin n → ℚ) (i : Fin n) (fuel : ℕ) (hf : 0 < fuel)
    (betaMin betaMax : Option ℚ) (beta : ℚ) :
    ∑ j, (d2pSearch e l Htarget tol Di i fuel betaMin betaMax beta).1 j = 1 := by
  obtain ⟨b, hb⟩ := d2pSearch_row_exists e l Htarget tol Di i fuel betaMin betaMax beta hf
  rw [hb]
  exact normProb_sum_one e Di i b (ne_of_gt (pSumOf_pos e he hn Di i b))

/-- With a positive exponential, any row kept by the binary search is
entrywise nonnegative. -/
theorem d2pSearch_row_nonneg (e l : ℚ → ℚ) {n : ℕ} (he : ∀ x, 0 < e x)
    (Htarget tol : ℚ) (Di : Fin n → ℚ) (i : Fin n) (fuel : ℕ) (hf : 0 < fuel)
    (betaMin betaMax : Option ℚ) (beta : ℚ) (j : Fin n) :
    0 ≤ (d2pSearch e l Htarget tol Di i fuel betaMin betaMax beta).1 j := by
  obtain ⟨b, hb⟩ := d2pSearch_row_exists e l Htarget tol Di i fuel betaMin betaMax beta hf
  rw [hb]
  exact normProb_nonneg e he Di i b j

theorem d2pRow_sum_one (e l : ℚ → ℚ) {n : ℕ} (he : ∀ x, 0 < e x) (hn : 2 ≤ n)
    (Htarget tol : ℚ) (D : Mat n n) (i : Fin n) :
    ∑ j, d2pRow e l Htarget tol D i j = 1 :=
  d2pSearch_row_sum_one e l he hn Htarget tol _ i MaxBinarySearchSteps
    (by norm_num [MaxBinarySearchSteps]) none none 1

theorem d2pRow_nonneg (e l : ℚ → ℚ) {n : ℕ} (he : ∀ x, 0 < e x)
    (Htarget tol : ℚ) (D : Mat n n) (i j : Fin n) :
    0 ≤ d2pRow e l Htarget tol D i j :=
  d2pSearch_row_nonneg e l he Htarget tol _ i MaxBinarySearchSteps
    (by norm_num [MaxBinarySearchSteps]) none none 1 j

/-- C4 (amended: at least two datapoints): the affinity matrix produced by
`d2p` is symmetric, every entry is at least the flooring constant `1e-12`
(hence nonzero), and the total sum is within `n² * 1e-12` of 1. -/
theorem c4_affinity_matrix_invariants (e l : ℚ → ℚ) {n : ℕ} (tol perp : ℚ)
    (D : Mat n n) (_hD : ∀ i j, D i j = D j i) (he : ∀ x, 0 < e x) (hn : 2 ≤ n) :
    (∀ i j, d2p e l tol perp D i j = d2p e l tol perp D j i) ∧
    (∀ i j, GreaterThanZero ≤ d2p e l tol perp D i j) ∧
    |(∑ i, ∑ j, d2p e l tol perp D i j) - 1| ≤ (n : ℚ) ^ 2 * GreaterThanZero := by
  have hnQ : (0 : ℚ) < (n : ℚ) := by
    have : (0 : ℕ) < n := by omega
    exact_mod_cast this
  have heps : (0 : ℚ) ≤ GreaterThanZero := by norm_num [GreaterThanZero]
  have hrow : ∀ i, ∑ j, d2pRow e l (l perp) tol D i j = 1 :=
    fun i => d2pRow_sum_one e l he hn (l perp) tol D i
  have hnn : ∀ i j, 0 ≤ d2pRow e l (l perp) tol D i j :=
    fun i j => d2pRow_nonneg e l he (l perp) tol D i j
  have hscaled_nn : ∀ i j : Fin n,
      0 ≤ 1 / (2 * (n : ℚ)) * (d2pRow e l (l perp) tol D i j + d2pRow e l (l perp) tol D j i) := by
    intro i j
    apply mul_nonneg
    · positivity
    · exact add_nonneg (hnn i j) (hnn j i)
  have hscaled_sum : ∑ i, ∑ j,
      1 / (2 * (n : ℚ)) * (d2pRow e l (l perp) tol D i j + d2pRow e l (l perp) tol D j i) = 1 := by
    simp only [← Finset.mul_sum]
    simp only [Finset.sum_add_distrib]
    have h1 : ∑ i : Fin n, ∑ j, d2pRow e l (l perp) tol D i j = (n : ℚ) := by
      simp [hrow]
    have h2 : ∑ i : Fin n, ∑ j, d2pRow e l (l perp) tol D j i = (n : ℚ) := by
      rw [Finset.sum_comm]
      simp [hrow]
    rw [← Finset.sum_add_distrib, Finset.sum_add_distrib, h1, h2]
    field_simp
    ring
  refine ⟨fun i j => ?_, fun i j => ?_, ?_⟩
  · simp only [d2p]
    congr 1
    ring
  · simp only [d2p]
    exact le_max_right _ _
  · simp only [d2p]
    have hlow : (1 : ℚ) ≤ ∑ i, ∑ j,
        max (1 / (2 * (n : ℚ)) *
          (d2pRow e l (l perp) tol D i j + d2pRow e l (l perp) tol D j i)) GreaterThanZero := by
      have hmono : ∑ i, ∑ j,
          1 / (2 * (n : ℚ)) *
            (d2pRow e l (l perp) tol D i j + d2pRow e l (l perp) tol D j i) ≤
          ∑ i, ∑ j, max (1 / (2 * (n : ℚ)) *
            (d2pRow e l (l perp) tol D i j + d2pRow e l (l perp) tol D j i))
            GreaterThanZero :=
        Finset.sum_le_sum fun i _ => Finset.sum_le_sum fun j _ => le_max_left _ _
      rw [hscaled_sum] at hmono
      exact hmono
    have hhigh : ∑ i, ∑ j,
        max (1 / (2 * (n : ℚ)) *
          (d2pRow e l (l perp) tol D i j + d2pRow e l (l perp) tol D j i)) GreaterThanZero ≤
        1 + (n : ℚ) ^ 2 * GreaterThanZero := by
      have hle : ∀ i j : Fin n,
          max (1 / (2 * (n : ℚ)) *
            (d2pRow e l (l perp) tol D i j + d2pRow e l (l perp) tol D j i)) GreaterThanZero ≤
          1 / (2 * (n : ℚ)) *
            (d2pRow e l (l perp) tol D i j + d2pRow e l (l perp) tol D j i) + GreaterThanZero :=
        fun i j => max_le (le_add_of_nonneg_right heps) (le_add_of_nonneg_left (hscaled_nn i j))
      calc ∑ i, ∑ j, max (1 / (2 * (n : ℚ)) *
              (d2pRow e l (l perp) tol D i j + d2pRow e l (l perp) tol D j i)) GreaterThanZero
          ≤ ∑ i, ∑ j, (1 / (2 * (n : ℚ)) *
              (d2pRow e l (l perp) tol D i j + d2pRow e l (l perp) tol D j i) + GreaterThanZero) :=
            Finset.sum_le_sum fun i _ => Finset.sum_le_sum fun j _ => hle i j
        _ = 1 + (n : ℚ) ^ 2 * GreaterThanZero := by
            simp only [Finset.sum_add_distrib, hscaled_sum, Finset.sum_const,
              Finset.card_univ, Fintype.card_fin, nsmul_eq_mul]
            ring
    have hsq : (0 : ℚ) ≤ (n : ℚ) ^ 2 * GreaterThanZero := by positivity
    rw [abs_le]
    constructor <;> linarith

/-- Closed instance of `c4_affinity_matrix_invariants` at the 2×2 zero
distance matrix with a constant positive exponential. -/
theorem c4_affinity_matrix_invariants_witness :
    (∀ i j : Fin 2, Dzero2 i j = Dzero2 j i) ∧ (∀ x, (0 : ℚ) < expOne x) ∧ 2 ≤ 2 ∧
    |(∑ i, ∑ j, d2p expOne logZero EntropyTolerance 30 Dzero2 i j) - 1| ≤
      ((2 : ℕ) : ℚ) ^ 2 * GreaterThanZero := by
  have hD : ∀ i j : Fin 2, Dzero2 i j = Dzero2 j i := fun i j => rfl
  have he : ∀ x, (0 : ℚ) < expOne x := fun x => by norm_num [expOne]
  exact ⟨hD, he, le_refl 2,
    (c4_affinity_matrix_invariants expOne logZero EntropyTolerance 30 Dzero2 hD he
      (le_refl 2)).2.2⟩

/-- C4 fails as literally stated ("for every matrix accepted by d2p"): at
the 1×1 zero distance matrix the produced affinity matrix is the single
entry `1e-12`, so the total sum is `1e-12`, which is not approximately 1
(it is below `1/2`, and farther from 1 than the `n² * 1e-12` tolerance). -/
theorem c4_affinity_matrix_invariants_counterexample :
    (∑ i, ∑ j, d2p expOne logZero EntropyTolerance 30 D1 i j) = GreaterThanZero ∧
    (∑ i, ∑ j, d2p expOne logZero EntropyTolerance 30 D1 i j) < 1 / 2 ∧
    ¬ |(∑ i, ∑ j, d2p expOne logZero EntropyTolerance 30 D1 i j) - 1| ≤
        ((1 : ℕ) : ℚ) ^ 2 * GreaterThanZero := by
  have htol : |entropyOf expOne logZero (fun j => D1 0 j) 0 1 - logZero 30| <
      EntropyTolerance := by
    norm_num [entropyOf, normProb, pSumOf, rawProb, D1, expOne, logZero, Epsilon,
      EntropyTolerance]
  have hrow : d2pRow expOne logZero (logZero 30) EntropyTolerance D1 0 =
      normProb expOne (fun j => D1 0 j) 0 1 := by
    unfold d2pRow
    rw [show MaxBinarySearchSteps = 49 + 1 from rfl,
      d2pSearch_early_stop expOne logZero (logZero 30) EntropyTolerance
        (fun j => D1 0 j) 0 49 none none 1 htol]
  have hval : ∀ j, normProb expOne (fun j2 => D1 0 j2) 0 1 j = 0 := by
    intro j
    norm_num [normProb, pSumOf, rawProb, D1, expOne]
  have hsum : (∑ i, ∑ j, d2p expOne logZero EntropyTolerance 30 D1 i j) =
      GreaterThanZero := by
    simp only [d2p]
    rw [Fin.sum_univ_one, Fin.sum_univ_one]
    rw [show (0 : Fin 1) = 0 from rfl]
    rw [hrow, hval 0]
    norm_num [GreaterThanZero]
  refine ⟨hsum, ?_, ?_⟩
  · rw [hsum]
    norm_num [GreaterThanZero]
  · rw [hsum, abs_of_neg (show GreaterThanZero - 1 < 0 by norm_num [GreaterThanZero])]
    norm_num [GreaterThanZero]

/-- C9: when `pSum` is exactly zero the normalization by `pSum` is skipped
and the whole probability row is zero; this is handled silently (there is
no error outcome anywhere in `d2p`), and even if the exponential is
constantly zero — every row degenerate — `d2p` still produces the
well-defined matrix whose every entry is the floor `1e-12`. -/
theorem c9_zero_sum_defensive (e l : ℚ → ℚ) {n : ℕ} (Di : Fin n → ℚ) (i : Fin n)
    (beta : ℚ) :
    (pSumOf e Di i beta = 0 → ∀ j, normProb e Di i beta j = 0) ∧
    (∀ (tol perp : ℚ) (D : Mat n n),
      d2p expZero l tol perp D = fun _ _ => GreaterThanZero) := by
  constructor
  · intro hp j
    simp [normProb, hp]
  · intro tol perp D
    funext i2 j2
    have hz : ∀ r c : Fin n, d2pRow expZero l (l perp) tol D r c = 0 := by
      intro r c
      obtain ⟨b, hb⟩ := d2pSearch_row_exists expZero l (l perp) tol
        (fun j => D r j) r MaxBinarySearchSteps none none 1
        (by norm_num [MaxBinarySearchSteps])
      unfold d2pRow
      rw [hb]
      simp [normProb, pSumOf, rawProb, expZero]
    simp only [d2p]
    rw [hz i2 j2, hz j2 i2]
    norm_num [GreaterThanZero]

/-- Closed instance of `c9_zero_sum_defensive`: with the constantly-zero
exponential the raw similarity sum of the 1-point row is exactly zero, and
the normalized probability is zero. -/
theorem c9_zero_sum_defensive_witness :
    pSumOf expZero Di1 0 1 = 0 ∧ normProb expZero Di1 0 1 0 = 0 := by
  have hp : pSumOf expZero Di1 0 1 = 0 := by
    norm_num [pSumOf, rawProb, expZero, Di1]
  exact ⟨hp, (c9_zero_sum_defensive expZero logZero Di1 0 1).1 hp 0⟩

/-! ## C8: zero-mean columns after every completed iteration -/

theorem recenter_col_sum_zero {n m : ℕ} (Y : Mat n m) (j : Fin m) :
    ∑ i, recenter Y i j = 0 := by
  unfold recenter
  rw [Finset.sum_sub_distrib, Finset.sum_const, Finset.card_univ, Fintype.card_fin,
    nsmul_eq_mul]
  rcases Nat.eq_zero_or_pos n with h | h
  · subst h
    simp
  · have hnz : ((n : ℚ)) ≠ 0 := ne_of_gt (by exact_mod_cast h)
    rw [mul_div_assoc', mul_div_cancel_left₀ _ hnz, sub_self]

theorem stepIter_col_sum_zero (l : ℚ → ℚ) {n m : ℕ} (lr PlogP : ℚ) (P : Mat n n)
    (st : OptState n m) (j : Fin m) :
    ∑ i, (stepIter l lr PlogP P st).2.Y i j = 0 := by
  have h : (stepIter l lr PlogP P st).2.Y =
      recenter (fun i j2 =>
        st.Y i j2 - lr * (costGradient l PlogP P st.Y st.dCdY).2 i j2) := rfl
  rw [h]
  exact recenter_col_sum_zero _ j

/-- Defining equation of `runAux` at fuel `0`: no iteration is executed,
no callback is invoked. -/
theorem runAux_zero (l : ℚ → ℚ) {n m : ℕ} (lr PlogP : ℚ) (P : Mat n n)
    (cb : Option (ℕ → ℚ → Mat n m → Bool)) (iter : ℕ) (st : OptState n m) :
    runAux l lr PlogP P cb 0 iter st = (st, []) := rfl

/-- Defining equation of `runAux` at positive fuel: one iteration runs,
its record is produced, and the loop breaks exactly when the callback
returned `true`. -/
theorem runAux_succ (l : ℚ → ℚ) {n m : ℕ} (lr PlogP : ℚ) (P : Mat n n)
    (cb : Option (ℕ → ℚ → Mat n m → Bool)) (fuel iter : ℕ) (st : OptState n m) :
    runAux l lr PlogP P cb (fuel + 1) iter st =
      if (match cb with
          | none => false
          | some g => g iter (stepIter l lr PlogP P st).1
              (stepIter l lr PlogP P st).2.Y) = true
      then ((stepIter l lr PlogP P st).2,
        [(iter, (stepIter l lr PlogP P st).1, (stepIter l lr PlogP P st).2.Y)])
      else ((runAux l lr PlogP P cb fuel (iter + 1) (stepIter l lr PlogP P st).2).1,
        (iter, (stepIter l lr PlogP P st).1, (stepIter l lr PlogP P st).2.Y) ::
          (runAux l lr PlogP P cb fuel (iter + 1) (stepIter l lr PlogP P st).2).2) :=
  rfl

/-- Every per-iteration record in the run trace carries the embedding of a
completed iteration, i.e. the output of some `stepIter`. -/
theorem runAux_trace_is_stepIter (l : ℚ → ℚ) {n m : ℕ} (lr PlogP : ℚ) (P : Mat n n)
    (cb : Option (ℕ → ℚ → Mat n m → Bool)) :
    ∀ (fuel iter : ℕ) (st : OptState n m) (k : ℕ) (dv : ℚ) (Yk : Mat n m),
      (k, dv, Yk) ∈ (runAux l lr PlogP P cb fuel iter st).2 →
      ∃ st2, Yk = (stepIter l lr PlogP P st2).2.Y := by
  have main : ∀ (fl iter : ℕ) (st : OptState n m) (k : ℕ) (dv : ℚ) (Yk : Mat n m),
      (k, dv, Yk) ∈ (runAux l lr PlogP P cb (fl + 1) iter st).2 →
      ∃ st2, Yk = (stepIter l lr PlogP P st2).2.Y := by
    intro fl
    induction fl with
    | zero =>
      intro iter st k dv Yk hmem
      rw [runAux_succ] at hmem
      split at hmem
      · simp only [List.mem_singleton, Prod.mk.injEq] at hmem
        exact ⟨st, hmem.2.2⟩
      · rw [runAux_zero] at hmem
        simp only [List.mem_cons, List.not_mem_nil, or_false, Prod.mk.injEq] at hmem
        exact ⟨st, hmem.2.2⟩
    | succ f2 ih =>
      intro iter st k dv Yk hmem
      rw [runAux_succ] at hmem
      split at hmem
      · simp only [List.mem_singleton, Prod.mk.injEq] at hmem
        exact ⟨st, hmem.2.2⟩
      · rcases List.mem_cons.mp hmem with hhead | htail
        · simp only [Prod.mk.injEq] at hhead
          exact ⟨st, hhead.2.2⟩
        · exact ih (iter + 1) (stepIter l lr PlogP P st).2 k dv Yk htail
  intro fuel
  cases fuel with
  | zero =>
    intro iter st k dv Yk hmem
    rw [runAux_zero] at hmem
    simp at hmem
  | succ fl => exact main fl

/-- C8: after every completed optimizer iteration (gradient step followed
by re-centering) each column of `Y` sums — hence averages — to exactly
zero: this holds for the re-centering map itself, for the state produced
by any single iteration, and for every embedding recorded (and passed to
the callback) during a run. -/
theorem c8_zero_mean_columns :
    (∀ (n m : ℕ) (Y : Mat n m) (j : Fin m), ∑ i, recenter Y i j = 0) ∧
    (∀ (l : ℚ → ℚ) (n m : ℕ) (lr PlogP : ℚ) (P : Mat n n) (st : OptState n m)
      (j : Fin m), ∑ i, (stepIter l lr PlogP P st).2.Y i j = 0) ∧
    (∀ (l : ℚ → ℚ) (n m : ℕ) (lr PlogP : ℚ) (P : Mat n n)
      (cb : Option (ℕ → ℚ → Mat n m → Bool)) (fuel iter : ℕ) (st : OptState n m)
      (k : ℕ) (dv : ℚ) (Yk : Mat n m),
      (k, dv, Yk) ∈ (runAux l lr PlogP P cb fuel iter st).2 →
      ∀ j, ∑ i, Yk i j = 0) := by
  refine ⟨fun n m Y j => recenter_col_sum_zero Y j,
    fun l n m lr PlogP P st j => stepIter_col_sum_zero l lr PlogP P st j,
    fun l n m lr PlogP P cb fuel iter st k dv Yk hmem j => ?_⟩
  obtain ⟨st2, hst2⟩ :=
    runAux_trace_is_stepIter l lr PlogP P cb fuel iter st k dv Yk hmem
  rw [hst2]
  exact stepIter_col_sum_zero l lr PlogP P st2 j

/-- Closed instance of `c8_zero_mean_columns`: a 1-point, 1-iteration run
whose single trace record has a zero column sum. -/
theorem c8_zero_mean_columns_witness :
    ((0, (stepIter logZero 1 0 draws1 ⟨draws1, fun _ _ => 0⟩).1,
        (stepIter logZero 1 0 draws1 ⟨draws1, fun _ _ => 0⟩).2.Y) : ℕ × ℚ × Mat 1 1) ∈
      (runAux logZero 1 0 draws1 none 1 0 ⟨draws1, fun _ _ => 0⟩).2 ∧
    ∑ i, (stepIter logZero 1 0 draws1 ⟨draws1, fun _ _ => 0⟩).2.Y i 0 = 0 := by
  have hmem : ((0, (stepIter logZero 1 0 draws1 ⟨draws1, fun _ _ => 0⟩).1,
      (stepIter logZero 1 0 draws1 ⟨draws1, fun _ _ => 0⟩).2.Y) : ℕ × ℚ × Mat 1 1) ∈
      (runAux logZero 1 0 draws1 none 1 0 ⟨draws1, fun _ _ => 0⟩).2 := by
    have htr : (runAux logZero (1 : ℚ) 0 draws1 none 1 0 ⟨draws1, fun _ _ => 0⟩).2 =
        [(0, (stepIter logZero 1 0 draws1 ⟨draws1, fun _ _ => 0⟩).1,
          (stepIter logZero 1 0 draws1 ⟨draws1, fun _ _ => 0⟩).2.Y)] := rfl
    rw [htr]
    exact List.mem_singleton.mpr rfl
  exact ⟨hmem, (c8_zero_mean_columns).2.2 logZero 1 1 1 0 draws1 none 1 0
    ⟨draws1, fun _ _ => 0⟩ 0 _ _ hmem 0⟩

/-! ## C3: early-stop contract of the callback -/

/-- If the callback returns `true` on a record of the trace, the run
stopped right there: the final embedding is the one passed to the callback
at that iteration, the trace contains exactly the iterations up to and
including it, and its index is within the fuel window. -/
theorem runAux_early_stop (l : ℚ → ℚ) {n m : ℕ} (lr PlogP : ℚ) (P : Mat n n)
    (f : ℕ → ℚ → Mat n m → Bool) :
    ∀ (fuel iter : ℕ) (st : OptState n m) (k : ℕ) (dv : ℚ) (Yk : Mat n m),
      (k, dv, Yk) ∈ (runAux l lr PlogP P (some f) fuel iter st).2 →
      f k dv Yk = true →
      (runAux l lr PlogP P (some f) fuel iter st).1.Y = Yk ∧
      (runAux l lr PlogP P (some f) fuel iter st).2.length = k + 1 - iter ∧
      iter ≤ k ∧ k < iter + fuel := by
  have main : ∀ (fl iter : ℕ) (st : OptState n m) (k : ℕ) (dv : ℚ) (Yk : Mat n m),
      (k, dv, Yk) ∈ (runAux l lr PlogP P (some f) (fl + 1) iter st).2 →
      f k dv Yk = true →
      (runAux l lr PlogP P (some f) (fl + 1) iter st).1.Y = Yk ∧
      (runAux l lr PlogP P (some f) (fl + 1) iter st).2.length = k + 1 - iter ∧
      iter ≤ k ∧ k < iter + (fl + 1) := by
    intro fl
    induction fl with
    | zero =>
      intro iter st k dv Yk hmem htrue
      rw [runAux_succ] at hmem ⊢
      split at hmem
      next hstop =>
        rw [if_pos hstop]
        simp only [List.mem_singleton, Prod.mk.injEq] at hmem
        obtain ⟨hk, _, hY⟩ := hmem
        subst hk
        subst hY
        refine ⟨rfl, ?_, by omega, by omega⟩
        simp only [List.length_cons, List.length_nil]
        omega
      next hstop =>
        exfalso
        rw [runAux_zero] at hmem
        simp only [List.mem_cons, List.not_mem_nil, or_false, Prod.mk.injEq] at hmem
        obtain ⟨hk, hdv, hY⟩ := hmem
        subst hk
        subst hdv
        subst hY
        exact hstop htrue
    | succ f2 ih =>
      intro iter st k dv Yk hmem htrue
      rw [runAux_succ] at hmem ⊢
      split at hmem
      next hstop =>
        rw [if_pos hstop]
        simp only [List.mem_singleton, Prod.mk.injEq] at hmem
        obtain ⟨hk, _, hY⟩ := hmem
        subst hk
        subst hY
        refine ⟨rfl, ?_, by omega, by omega⟩
        simp only [List.length_cons, List.length_nil]
        omega
      next hstop =>
        rw [if_neg hstop]
        rcases List.mem_cons.mp hmem with hhead | htail
        · exfalso
          simp only [Prod.mk.injEq] at hhead
          obtain ⟨hk, hdv, hY⟩ := hhead
          subst hk
          subst hdv
          subst hY
          exact hstop htrue
        · obtain ⟨h1, h2, h3, h4⟩ :=
            ih (iter + 1) (stepIter l lr PlogP P st).2 k dv Yk htail htrue
          refine ⟨h1, ?_, by omega, by omega⟩
          simp only [List.length_cons, h2]
          omega
  intro fuel
  cases fuel with
  | zero =>
    intro iter st k dv Yk hmem
    rw [runAux_zero] at hmem
    simp at hmem
  | succ fl => exact main fl

/-- C3: for a run with a callback, if the callback returns `true` on the
record of iteration `k`, then the embedding returned by `EmbedDistances`
is exactly the embedding passed to the callback at iteration `k`, the
trace has length `k + 1` (iterations `0..k` and nothing after — no
iteration `k+1` computation occurs), and `k < maxIter`. -/
theorem c3_early_stop_contract (e l : ℚ → ℚ) {dimsOut : ℕ} (perp lr : ℚ)
    (maxIter : ℕ) (Dm : RawMatrix) (draws : Mat Dm.rows dimsOut)
    (f : ℕ → ℚ → Mat Dm.rows dimsOut → Bool)
    (res : Mat Dm.rows dimsOut) (trace : List (ℕ × ℚ × Mat Dm.rows dimsOut))
    (hE : EmbedDistances e l perp lr maxIter Dm draws (some f) =
      Except.ok (res, trace))
    (k : ℕ) (dv : ℚ) (Yk : Mat Dm.rows dimsOut)
    (hmem : (k, dv, Yk) ∈ trace) (htrue : f k dv Yk = true) :
    res = Yk ∧ trace.length = k + 1 ∧ k < maxIter := by
  by_cases h : Dm.rows = Dm.cols
  · unfold EmbedDistances at hE
    rw [dif_pos h] at hE
    simp only [Except.ok.injEq, Prod.mk.injEq] at hE
    obtain ⟨hres, htrace⟩ := hE
    subst hres
    subst htrace
    obtain ⟨h1, h2, _, h4⟩ :=
      runAux_early_stop l lr _ _ f maxIter 0 _ k dv Yk hmem htrue
    exact ⟨h1.symm ▸ rfl, by omega, by omega⟩
  · unfold EmbedDistances at hE
    rw [dif_neg h] at hE
    cases hE

/-- Closed instance of `c3_early_stop_contract`: a 1-point run with
`maxIter = 1` and an always-`true` callback stops at iteration 0 and
returns the embedding passed to the callback. -/
theorem c3_early_stop_contract_witness :
    (EmbedDistances expOne logZero 30 1 1 Dm1 draws1 (some cbTrue) =
      Except.ok (c3step.2.Y, [(0, c3step.1, c3step.2.Y)])) ∧
    ((0, c3step.1, c3step.2.Y) ∈ [((0 : ℕ), c3step.1, c3step.2.Y)]) ∧
    cbTrue 0 c3step.1 c3step.2.Y = true ∧
    (c3step.2.Y = c3step.2.Y ∧
      List.length [((0 : ℕ), c3step.1, c3step.2.Y)] = 0 + 1 ∧ 0 < 1) := by
  have hE : EmbedDistances expOne logZero 30 1 1 Dm1 draws1 (some cbTrue) =
      Except.ok (c3step.2.Y, [(0, c3step.1, c3step.2.Y)]) := rfl
  exact ⟨hE, List.mem_singleton.mpr rfl, rfl,
    c3_early_stop_contract expOne logZero 30 1 1 Dm1 draws1 cbTrue _ _ hE 0
      c3step.1 c3step.2.Y (List.mem_singleton.mpr rfl) rfl⟩

/-! ## C2: zero max iterations -/

/-- C2 (amended): with `maxIter = 0` the optimizer loop never runs, so
`EmbedDistances` returns the embedding exactly as initialized — the raw
random draw, with NO mean-centering applied — and the callback is never
invoked (the trace is empty). -/
theorem c2_zero_iterations (e l : ℚ → ℚ) {dimsOut : ℕ} (perp lr : ℚ)
    (Dm : RawMatrix) (draws : Mat Dm.rows dimsOut)
    (cb : Option (ℕ → ℚ → Mat Dm.rows dimsOut → Bool)) (h : Dm.rows = Dm.cols) :
    EmbedDistances e l perp lr 0 Dm draws cb = Except.ok (draws, []) := by
  unfold EmbedDistances
  rw [dif_pos h]
  rfl

/-- C2 as stated is false: on a 1×1 input with initial draw `[1]` and
`maxIter = 0`, `EmbedDistances` returns the draw itself (entry `1`),
whereas the mean-centered draw has entry `0` — the returned embedding is
not the mean-centered initial draw. -/
theorem c2_zero_iterations_counterexample :
    EmbedDistances expOne logZero 30 1 0 Dm1 draws1 none = Except.ok (draws1, []) ∧
    draws1 0 0 ≠ recenter draws1 0 0 := by
  constructor
  · rfl
  · norm_num [draws1, recenter, Fin.sum_univ_one]

/-- Closed instance of `c2_zero_iterations` at the 1×1 example. -/
theorem c2_zero_iterations_witness :
    Dm1.rows = Dm1.cols ∧
    EmbedDistances expOne logZero 30 1 0 Dm1 draws1 none = Except.ok (draws1, []) :=
  ⟨rfl, c2_zero_iterations expOne logZero 30 1 Dm1 draws1 none rfl⟩

/-! ## C7: shape validation of EmbedDistances -/

/-- C7: when the supplied distance matrix is not square, `EmbedDistances`
fails with the invalid-input error (the Go code panics with this message
before `tsne.n` is assigned or `P`, the solution, or any iteration is
computed, so the object state is untouched and no embedding is produced);
when it is square, it computes `P` with `d2p`, initializes the solution,
runs the optimizer, and returns the final embedding with the trace. -/
theorem c7_embed_distances_validation (e l : ℚ → ℚ) {dimsOut : ℕ} (perp lr : ℚ)
    (maxIter : ℕ) (Dm : RawMatrix) (draws : Mat Dm.rows dimsOut)
    (cb : Option (ℕ → ℚ → Mat Dm.rows dimsOut → Bool)) :
    (Dm.rows ≠ Dm.cols →
      EmbedDistances e l perp lr maxIter Dm draws cb =
        Except.error "squared distance matrix is not square") ∧
    (∀ h : Dm.rows = Dm.cols,
      EmbedDistances e l perp lr maxIter Dm draws cb =
        Except.ok
          ((runAux l lr
              (initSolution l draws (d2p e l EntropyTolerance perp
                (fun i j => Dm.entry i (Fin.cast h j)))).2
              (d2p e l EntropyTolerance perp (fun i j => Dm.entry i (Fin.cast h j)))
              cb maxIter 0
              (initSolution l draws (d2p e l EntropyTolerance perp
                (fun i j => Dm.entry i (Fin.cast h j)))).1).1.Y,
            (runAux l lr
              (initSolution l draws (d2p e l EntropyTolerance perp
                (fun i j => Dm.entry i (Fin.cast h j)))).2
              (d2p e l EntropyTolerance perp (fun i j => Dm.entry i (Fin.cast h j)))
              cb maxIter 0
              (initSolution l draws (d2p e l EntropyTolerance perp
                (fun i j => Dm.entry i (Fin.cast h j)))).1).2)) := by
  constructor
  · intro hne
    unfold EmbedDistances
    rw [dif_neg hne]
  · intro h
    unfold EmbedDistances
    rw [dif_pos h]

/-- Closed instance of `c7_embed_distances_validation`: the 1×2 matrix is
rejected with the invalid-input error; the square 1×1 matrix produces an
embedding. -/
theorem c7_embed_distances_validation_witness :
    DmBad.rows ≠ DmBad.cols ∧
    EmbedDistances expOne logZero 30 1 1 DmBad Mzero1 none =
      Except.error "squared distance matrix is not square" ∧
    ∃ r, EmbedDistances expOne logZero 30 1 0 Dm1 draws1 none = Except.ok r := by
  have hne : DmBad.rows ≠ DmBad.cols := by
    norm_num [DmBad]
  exact ⟨hne,
    (c7_embed_distances_validation expOne logZero 30 1 1 DmBad Mzero1 none).1 hne,
    ⟨_, (c7_embed_distances_validation expOne logZero 30 1 0 Dm1 draws1 none).2 rfl⟩⟩

/-! ## C1: the gradient buffer is never cleared between iterations -/

/-- C1 fails on the code: `dCdY` is zeroed only once, in `initSolution`,
and `costGradient` accumulates into whatever the buffer already holds.
Concretely, with `P = [[0, 3/10], [3/10, 0]]`, initial `Y = [[0], [1]]`
and learning rate 1, the buffer passed to iteration 2's `Y`-update (the
buffer produced by iteration 2's `costGradient` on the state left by
iteration 1) differs from the gradient accumulated from a zero buffer in
that same call: iteration 1's gradient is still in it.  This contradicts
`costGradient`'s own documentation ("computes the gradient of the
divergence"), the `dCdY` field comment, and the spec. -/
theorem c1_gradient_buffer_not_cleared :
    (stepIter logZero 1 0 Ptest ⟨Ytest, fun _ _ => 0⟩).2.dCdY ≠ (fun _ _ => 0) ∧
    (costGradient logZero 0 Ptest (stepIter logZero 1 0 Ptest ⟨Ytest, fun _ _ => 0⟩).2.Y
        (stepIter logZero 1 0 Ptest ⟨Ytest, fun _ _ => 0⟩).2.dCdY).2 ≠
      (costGradient logZero 0 Ptest (stepIter logZero 1 0 Ptest ⟨Ytest, fun _ _ => 0⟩).2.Y
        (fun _ _ => 0)).2 := by
  constructor
  · intro h
    have h0 := congrFun (congrFun h 0) 0
    norm_num [stepIter, costGradient, recenter, SquaredDistanceMatrix, Diagonal,
      Ptest, Ytest, logZero, GreaterThanZero, Fin.sum_univ_two, Fin.sum_univ_one,
      max_def] at h0
  · intro h
    have h0 := congrFun (congrFun h 0) 0
    norm_num [stepIter, costGradient, recenter, SquaredDistanceMatrix, Diagonal,
      Ptest, Ytest, logZero, GreaterThanZero, Fin.sum_univ_two, Fin.sum_univ_one,
      max_def] at h0

/-! ## C10: the caller's input buffer is never mutated -/

/-- `SquaredDistanceMatrixS` writes only into its four fresh buffers, so
every previously allocated buffer — in particular the input `X` — reads
back unchanged. -/
theorem squaredDistanceMatrixS_frame (s : Store) (xRef r : ℕ) (hr : r < s.next) :
    (SquaredDistanceMatrixS s xRef).1.read r = s.read r := by
  simp only [SquaredDistanceMatrixS, Store.alloc, Store.write, Store.read,
    eq_false (show r ≠ s.next from by omega),
    eq_false (show r ≠ s.next + 1 from by omega),
    eq_false (show r ≠ s.next + 1 + 1 from by omega),
    eq_false (show r ≠ s.next + 1 + 1 + 1 from by omega),
    if_false]

/-- `d2pS` copies `D` and writes only into the fresh `P` buffer, so the
caller's `D` reads back unchanged. -/
theorem d2pS_frame (e l : ℚ → ℚ) (tol perp : ℚ) (s : Store) (dRef r : ℕ)
    (hr : r < s.next) :
    (d2pS e l tol perp s dRef).1.read r = s.read r := by
  simp only [d2pS, Store.alloc, Store.write, Store.read,
    eq_false (show r ≠ s.next from by omega),
    eq_false (show r ≠ s.next + 1 from by omega),
    if_false]

/-- `EmbedDistancesS` writes only into the fresh `P`, `Y` and gradient
buffers, so the caller's `D` reads back unchanged. -/
theorem embedDistancesS_frame (e l : ℚ → ℚ) (dimsOut : ℕ) (perp lr : ℚ)
    (maxIter : ℕ) (draws : ℕ → ℕ → ℚ) (s : Store) (dRef r : ℕ) (hr : r < s.next) :
    (EmbedDistancesS e l dimsOut perp lr maxIter draws s dRef).1.read r = s.read r := by
  simp only [EmbedDistancesS, d2pS, Store.alloc, Store.write, Store.read,
    eq_false (show r ≠ s.next from by omega),
    eq_false (show r ≠ s.next + 1 from by omega),
    eq_false (show r ≠ s.next + 1 + 1 from by omega),
    eq_false (show r ≠ s.next + 1 + 1 + 1 from by omega),
    if_false]

/-- `EmbedDataS` composes the two, so the caller's `X` reads back
unchanged. -/
theorem embedDataS_frame (e l : ℚ → ℚ) (dimsOut : ℕ) (perp lr : ℚ)
    (maxIter : ℕ) (draws : ℕ → ℕ → ℚ) (s : Store) (xRef r : ℕ) (hr : r < s.next) :
    (EmbedDataS e l dimsOut perp lr maxIter draws s xRef).1.read r = s.read r := by
  simp only [EmbedDataS, EmbedDistancesS, d2pS, SquaredDistanceMatrixS,
    Store.alloc, Store.write, Store.read,
    eq_false (show r ≠ s.next from by omega),
    eq_false (show r ≠ s.next + 1 from by omega),
    eq_false (show r ≠ s.next + 1 + 1 from by omega),
    eq_false (show r ≠ s.next + 1 + 1 + 1 from by omega),
    eq_false (show r ≠ s.next + 1 + 1 + 1 + 1 from by omega),
    eq_false (show r ≠ s.next + 1 + 1 + 1 + 1 + 1 from by omega),
    eq_false (show r ≠ s.next + 1 + 1 + 1 + 1 + 1 + 1 from by omega),
    eq_false (show r ≠ s.next + 1 + 1 + 1 + 1 + 1 + 1 + 1 from by omega),
    if_false]

/-- C10: at the buffer level, neither `EmbedData` nor `EmbedDistances`
(nor the `SquaredDistanceMatrix` and `d2p` they call) mutates the
caller-supplied input buffer: `d2p` copies `D` before reading rows and
writes only into the freshly allocated `P`; `SquaredDistanceMatrix` reads
`X` and writes only into freshly allocated matrices; the optimizer writes
only into the fresh `Y` and gradient buffers.  So any buffer allocated
before the call — in particular the input — reads back unchanged. -/
theorem c10_inputs_not_mutated (e l : ℚ → ℚ) (dimsOut : ℕ) (perp lr : ℚ)
    (maxIter : ℕ) (draws : ℕ → ℕ → ℚ) (s : Store) (ref : ℕ) (h : ref < s.next) :
    (SquaredDistanceMatrixS s ref).1.read ref = s.read ref ∧
    (d2pS e l EntropyTolerance perp s ref).1.read ref = s.read ref ∧
    (EmbedDistancesS e l dimsOut perp lr maxIter draws s ref).1.read ref = s.read ref ∧
    (EmbedDataS e l dimsOut perp lr maxIter draws s ref).1.read ref = s.read ref :=
  ⟨squaredDistanceMatrixS_frame s ref ref h,
    d2pS_frame e l EntropyTolerance perp s ref ref h,
    embedDistancesS_frame e l dimsOut perp lr maxIter draws s ref ref h,
    embedDataS_frame e l dimsOut perp lr maxIter draws s ref ref h⟩

/-- Closed instance of `c10_inputs_not_mutated` on a one-buffer store. -/
theorem c10_inputs_not_mutated_witness :
    0 < storeEx.next ∧
    (EmbedDataS expOne logZero 1 30 1 5 (fun _ _ => 0) storeEx 0).1.read 0 =
      storeEx.read 0 :=
  ⟨Nat.zero_lt_one,
    (c10_inputs_not_mutated expOne logZero 1 30 1 5 (fun _ _ => 0) storeEx 0
      Nat.zero_lt_one).2.2.2⟩

end GoTSNE
